import Mathlib

/-!
Shallow embedding of the core text-processing pipeline of `src/app.py`
(an EPG listing-blurb generator).  Grids are lists of rows of string
cells; Python integers are `Int`; Python `str` is `String` (a list of
code points, matching Python's code-point semantics for `len`, slicing
and iteration).  Fallible cell access (`df.iat` + `try/except`) is
modelled with `Option`.  The two `re.sub` calls of
`prefer_latin_title` are specialised to their concrete patterns
(`[（(][^）)]*[）)]\s*$` and `\s*[（(][^）)]*[）)]\s*`), implemented as
fuel-indexed scanners that follow Python's leftmost, non-overlapping
replacement discipline.
-/

namespace Rateran

/-- Python whitespace test (`str.strip`, regex `\s`) for the character
repertoire relevant to this program: ASCII whitespace plus the
ideographic space U+3000. -/
def isSpace (c : Char) : Bool :=
  c == ' ' || c == '\t' || c == '\n' || c == '\r' || c == '\x0b' || c == '\x0c' || c == '　'

/-- Latin-letter test, the regex `LATIN = [A-Za-z]` of app.py line 22. -/
def isLatin (c : Char) : Bool :=
  ('A' ≤ c && c ≤ 'Z') || ('a' ≤ c && c ≤ 'z')

/-- Opening bracket class `[（(]` of the title regexes. -/
def isOpen (c : Char) : Bool := c == '（' || c == '('

/-- Closing bracket class `[）)]` of the title regexes. -/
def isClose (c : Char) : Bool := c == '）' || c == ')'

/-- Delimiter class `[、，,/／・\s]` used by `normalize_cast` and
`cast_first_n` (app.py lines 55 and 62). -/
def isDelim (c : Char) : Bool :=
  c == '、' || c == '，' || c == ',' || c == '/' || c == '／' || c == '・' || isSpace c

/-- Drop trailing whitespace (the right half of Python `str.strip`). -/
def dropTrail (l : List Char) : List Char :=
  (l.reverse.dropWhile isSpace).reverse

/-- Python `str.strip` on a list of characters. -/
def stripL (l : List Char) : List Char :=
  dropTrail (l.dropWhile isSpace)

/-- Python `str.strip` on strings. -/
def stripS (s : String) : String := ⟨stripL s.data⟩

/-- Python `str.lower`, restricted to the ASCII case mapping (the only
part exercised by the `"nan"` sentinel comparison). -/
def lowerS (s : String) : String := ⟨s.data.map Char.toLower⟩

/-- Positional list lookup, `none` when the index is past the end
(models the `IndexError` of a too-large index). -/
def listNth {α : Type} : List α → Nat → Option α
  | [], _ => none
  | a :: _, 0 => some a
  | _ :: l, n + 1 => listNth l n

/-- Python/pandas positional indexing with an `Int` index: nonnegative
indices count from the front, negative indices count from the end
(`l[i]` is `l[len l + i]` for `-len l ≤ i < 0`), anything else raises
`IndexError`, modelled as `none`.  This is the indexing of `df.iat`. -/
def pyIndex {α : Type} (l : List α) (i : Int) : Option α :=
  if 0 ≤ i then listNth l i.toNat
  else if 0 ≤ i + l.length then listNth l (i + l.length).toNat else none

/-- Conversion of one fetched cell to the returned text, app.py
lines 29-30: `val = str(df.iat[r, c]).strip()` followed by
`"" if val.lower() == "nan" else val`. -/
def cellText (v : String) : String :=
  if lowerS (stripS v) = "nan" then "" else stripS v

/-- Body of the `try` block of `get_cell` (app.py lines 28-32): fetch
`df.iat[r, c]`; an `IndexError` (a `none` lookup) is caught by the
`except` and degrades to `""`, otherwise the cell text is returned. -/
def cell_lookup (df : List (List String)) (r c : Int) : String :=
  match pyIndex df r with
  | none => ""
  | some row =>
    match pyIndex row c with
    | none => ""
    | some v => cellText v

/-- The `get_cell` of app.py lines 24-32.  `pos` is `None`/falsy or a
(row, column) pair; any indexing failure is caught and degrades to
`""`. -/
def get_cell (df : List (List String)) (pos : Option (Int × Int)) : String :=
  match pos with
  | none => ""
  | some (r, c) => cell_lookup df r c

/-- Matcher for the tail of `[（(][^）)]*[）)]\s*$` after the opening
bracket: there is a first closing bracket and everything after it is
whitespace (Python's `$` also accepts a final newline, which the
greedy `\s*` has already consumed). -/
def matchTail1 (cs : List Char) : Bool :=
  match cs.dropWhile (fun c => !(isClose c)) with
  | [] => false
  | _ :: rest2 => rest2.all isSpace

/-- The first substitution of `prefer_latin_title` (app.py line 46):
`re.sub(r"[（(][^）)]*[）)]\s*$", "", s)`.  The (unique, leftmost)
match runs from an opening bracket to the end of the string, so the
substitution keeps the prefix before that bracket. -/
def sub1 : List Char → List Char
  | [] => []
  | c :: rest => if isOpen c && matchTail1 rest then [] else c :: sub1 rest

/-- Fueled scanner for the second substitution of `prefer_latin_title`
(app.py line 48): `re.sub(r"\s*[（(][^）)]*[）)]\s*", " ", s)` with
Python's leftmost, non-overlapping semantics.  The fuel only needs to
cover the length of the input; every step consumes at least one
character before recursing. -/
def sub2F : Nat → List Char → List Char
  | 0, cs => cs
  | fuel + 1, cs =>
    match cs.dropWhile isSpace with
    | [] => cs.takeWhile isSpace
    | r :: rest2 =>
      if isOpen r && rest2.any isClose then
        match rest2.dropWhile (fun c => !(isClose c)) with
        | [] => cs
        | _ :: rest4 => ' ' :: sub2F fuel (rest4.dropWhile isSpace)
      else cs.takeWhile isSpace ++ r :: sub2F fuel rest2

/-- The second substitution of `prefer_latin_title` with adequate fuel. -/
def sub2 (cs : List Char) : List Char := sub2F cs.length cs

/-- Character-list core of `prefer_latin_title` (app.py lines 34-49):
strip, return empty as-is, and only when a Latin letter is present
drop the trailing parenthetical then every remaining parenthetical,
stripping in between. -/
def pltL (cs : List Char) : List Char :=
  if stripL cs = [] then stripL cs
  else if (stripL cs).any isLatin then stripL (sub2 (stripL (sub1 (stripL cs))))
  else stripL cs

/-- The `prefer_latin_title` of app.py lines 34-49. -/
def prefer_latin_title (title_raw : String) : String := ⟨pltL title_raw.data⟩

/-- Single-character splitter underlying
`re.split(r"[、，,/／・\s]+", text)`: splitting on every delimiter
character yields the same nonempty segments as splitting on maximal
delimiter runs, and both the app and this model immediately discard
the empty segments. -/
def rawSplitA : List Char → List Char × List (List Char)
  | [] => ([], [])
  | c :: l =>
    if isDelim c then ([], (rawSplitA l).1 :: (rawSplitA l).2)
    else (c :: (rawSplitA l).1, (rawSplitA l).2)

/-- All segments of the split, first segment in front. -/
def rawSplit (l : List Char) : List (List Char) :=
  (rawSplitA l).1 :: (rawSplitA l).2

/-- Nonempty tokens of a split, `[p for p in parts if p]`. -/
def tokens (l : List Char) : List (List Char) :=
  (rawSplit l).filter (fun t => !t.isEmpty)

/-- Python `"、".join(parts)`. -/
def joinT : List (List Char) → List Char
  | [] => []
  | [t] => t
  | t :: ts => t ++ '、' :: joinT ts

/-- The `normalize_cast` of app.py lines 51-57: strip, split on the
delimiter class, drop empty tokens, rejoin with `"、"`. -/
def normalize_cast (cast_text : String) : String :=
  ⟨joinT (tokens (stripL cast_text.data))⟩

/-- Python list slice `l[:n]` with an `Int` bound: a nonnegative bound
takes that many elements, a negative bound stops `|n|` before the end
(clamped at zero). -/
def pyTake {α : Type} (l : List α) (n : Int) : List α :=
  if 0 ≤ n then l.take n.toNat else l.take (n + l.length).toNat

/-- The `cast_first_n` of app.py lines 59-63. -/
def cast_first_n (cast : String) (n : Int) : String :=
  if cast = "" then "" else ⟨joinT (pyTake (tokens cast.data) n)⟩

/-- The four status marks of the UI (`marks` dict): subtitled 字,
dubbed デ, new 新, final 終. -/
structure Marks where
  ji : Bool
  de : Bool
  shin : Bool
  owari : Bool

/-- The `compose_text` of app.py lines 69-88: head marks 字デ, then
新-wrapped-終 title, then the cast appended with no separator. -/
def compose_text (base_title : String) (cast : String) (m : Marks) : String :=
  let head := (if m.ji then "字" else "") ++ (if m.de then "デ" else "")
  let core0 := (if m.shin then "新" else "") ++ base_title ++ (if m.owari then "終" else "")
  let core := if cast ≠ "" then core0 ++ cast else core0
  head ++ core

/-- The `trim_to_len` of app.py lines 65-67: empty for a non-positive
budget, otherwise a plain code-point slice `s[:n]`. -/
def trim_to_len (s : String) (n : Int) : String :=
  if n ≤ 0 then "" else if (s.length : Int) ≤ n then s else ⟨s.data.take n.toNat⟩

/-- The accumulation loop of `generate_ideas` (app.py lines 102-106):
trim each raw candidate, keep it only when nonempty and not already
present, preserving order. -/
def sift (n : Int) : List String → List String → List String
  | out, [] => out
  | out, x :: xs =>
    if trim_to_len x n ≠ "" ∧ trim_to_len x n ∉ out then sift n (out ++ [trim_to_len x n]) xs
    else sift n out xs

/-- The `generate_ideas` of app.py lines 90-107: three raw candidates
(full cast, first two names, title only) filtered through `sift`. -/
def generate_ideas (base_title cast : String) (marks : Marks) (length : Int) : List String :=
  sift length []
    [compose_text base_title cast marks,
     compose_text base_title (cast_first_n cast 2) marks,
     compose_text base_title "" marks]

/-- Python value stored in an output-row dict: the app stores ints
(`length`, `idea_no`) and strings (`text`, `writer`). -/
inductive PyVal
  | int (i : Int)
  | str (s : String)
deriving DecidableEq

/-- One output row, the dict literal of app.py lines 180-182:
`{"length": L, "idea_no": idx, "text": idea, "writer": writer_input}`. -/
def mkRow (L : Int) (i : Nat) (text writer : String) : List (String × PyVal) :=
  [("length", PyVal.int L), ("idea_no", PyVal.int i), ("text", PyVal.str text),
   ("writer", PyVal.str writer)]

/-- Python `enumerate(l, start)`. -/
def pyEnumerate {α : Type} (start : Nat) : List α → List (Nat × α)
  | [] => []
  | a :: as => (start, a) :: pyEnumerate (start + 1) as

/-- The orchestration loop building `out_rows` (app.py lines 174-182):
for each target length, enumerate the generated ideas from 1 and emit
one row per idea. -/
def out_rows (base_title cast : String) (marks : Marks) (lengths : List Int)
    (writer : String) : List (List (String × PyVal)) :=
  lengths.flatMap fun L =>
    (pyEnumerate 1 (generate_ideas base_title cast marks L)).map fun p =>
      mkRow L p.1 p.2 writer

/-- Verification-level predicate: the character list contains an
opening bracket with some closing bracket somewhere after it.  Both
title substitutions can only act on such a configuration, so a list
without one is a fixed point of both. -/
def hasOpenClose : List Char → Bool
  | [] => false
  | c :: rest => (isOpen c && rest.any isClose) || hasOpenClose rest

/-- Modelled from the spec: length-based title selection, spec §4.2(b)
("If `length <= 10` and a non-empty short title is available, return
the short title; otherwise return the main title").  src/app.py has no
short-title handling at all — `FIXPOS` (lines 10-17) has no短縮
position and `generate_ideas` uses the single base title for every
length — so this resolver is taken from the spec's words. -/
def selectTitle (length : Int) (mainTitle shortTitle : String) : String :=
  if length ≤ 10 ∧ shortTitle ≠ "" then shortTitle else mainTitle

/-- Modelled from the spec: short-title override precedence, spec
§4.2(b) ("A manually-entered override value takes precedence over the
value extracted from the grid's short-title position").  Absent from
src/app.py for the same reason as `selectTitle`. -/
def resolveShortTitle (manual gridShort : String) : String :=
  if manual ≠ "" then manual else gridShort

/-!
### Basic list facts
Small self-contained lemmas about `dropWhile`, `takeWhile`, `listNth`
and membership that the main development reuses.
-/

theorem dropWhile_self {α : Type} (p : α → Bool) (l : List α) :
    (l.dropWhile p).dropWhile p = l.dropWhile p := by
  induction l with
  | nil => rfl
  | cons a t ih =>
    by_cases h : p a = true
    · simp [List.dropWhile_cons, h, ih]
    · simp [List.dropWhile_cons, h]

theorem mem_of_mem_dw {α : Type} {p : α → Bool} {x : α} :
    ∀ {l : List α}, x ∈ l.dropWhile p → x ∈ l := by
  intro l
  induction l with
  | nil => intro h; exact h
  | cons a t ih =>
    intro h
    by_cases hp : p a = true
    · rw [List.dropWhile_cons, if_pos hp] at h
      exact List.mem_cons_of_mem a (ih h)
    · rw [List.dropWhile_cons, if_neg hp] at h
      exact h

theorem mem_of_mem_tw {α : Type} {p : α → Bool} {x : α} :
    ∀ {l : List α}, x ∈ l.takeWhile p → x ∈ l := by
  intro l
  induction l with
  | nil => intro h; exact absurd h (by simp)
  | cons a t ih =>
    intro h
    by_cases hp : p a = true
    · rw [List.takeWhile_cons, if_pos hp] at h
      rcases List.mem_cons.mp h with rfl | h
      · exact List.mem_cons_self _ _
      · exact List.mem_cons_of_mem a (ih h)
    · rw [List.takeWhile_cons, if_neg hp] at h
      exact absurd h (by simp)

theorem pred_of_mem_tw {α : Type} {p : α → Bool} {x : α} :
    ∀ {l : List α}, x ∈ l.takeWhile p → p x = true := by
  intro l
  induction l with
  | nil => intro h; exact absurd h (by simp)
  | cons a t ih =>
    intro h
    by_cases hp : p a = true
    · rw [List.takeWhile_cons, if_pos hp] at h
      rcases List.mem_cons.mp h with rfl | h
      · exact hp
      · exact ih h
    · rw [List.takeWhile_cons, if_neg hp] at h
      exact absurd h (by simp)

theorem length_dw_le {α : Type} (p : α → Bool) (l : List α) :
    (l.dropWhile p).length ≤ l.length := by
  induction l with
  | nil => exact Nat.le_refl _
  | cons a t ih =>
    by_cases h : p a = true
    · rw [List.dropWhile_cons, if_pos h]
      exact Nat.le_trans ih (Nat.le_succ _)
    · rw [List.dropWhile_cons, if_neg h]

theorem dw_eq_nil_all {α : Type} {p : α → Bool} :
    ∀ {l : List α}, l.dropWhile p = [] → ∀ x ∈ l, p x = true := by
  intro l
  induction l with
  | nil => intro _ x hx; exact absurd hx (by simp)
  | cons a t ih =>
    intro h x hx
    by_cases hp : p a = true
    · rw [List.dropWhile_cons, if_pos hp] at h
      rcases List.mem_cons.mp hx with rfl | hx
      · exact hp
      · exact ih h x hx
    · rw [List.dropWhile_cons, if_neg hp] at h
      exact absurd h (by simp)

theorem dw_eq_nil_of_all {α : Type} {p : α → Bool} :
    ∀ {l : List α}, (∀ x ∈ l, p x = true) → l.dropWhile p = [] := by
  intro l
  induction l with
  | nil => intro _; rfl
  | cons a t ih =>
    intro h
    rw [List.dropWhile_cons, if_pos (h a (List.mem_cons_self _ _))]
    exact ih fun x hx => h x (List.mem_cons_of_mem a hx)

theorem head_false_of_dw_self {α : Type} {p : α → Bool} {a : α} {t : List α}
    (h : (a :: t).dropWhile p = a :: t) : p a = false := by
  by_contra hp
  have hp' : p a = true := by
    cases hpa : p a
    · exact absurd hpa hp
    · rfl
  rw [List.dropWhile_cons, if_pos hp'] at h
  have h1 : (t.dropWhile p).length ≤ t.length := length_dw_le p t
  have h2 : (t.dropWhile p).length = t.length + 1 := by rw [h]; rfl
  omega

theorem listNth_none_iff {α : Type} :
    ∀ (l : List α) (n : Nat), listNth l n = none ↔ l.length ≤ n := by
  intro l
  induction l with
  | nil => intro n; simp [listNth]
  | cons a t ih =>
    intro n
    cases n with
    | zero => simp [listNth]
    | succ n => rw [listNth, ih n]; simp only [List.length_cons]; omega

theorem listNth_mem {α : Type} {x : α} :
    ∀ {l : List α} {n : Nat}, listNth l n = some x → x ∈ l := by
  intro l
  induction l with
  | nil => intro n h; exact absurd h (by simp [listNth])
  | cons a t ih =>
    intro n h
    cases n with
    | zero =>
      rw [listNth] at h
      cases h
      exact List.mem_cons_self _ _
    | succ n =>
      rw [listNth] at h
      exact List.mem_cons_of_mem a (ih h)

/-!
### Stripping lemmas
`stripL` models Python `str.strip`.  The development needs: stripping
is idempotent, it only removes characters (membership shrinks), and a
list without whitespace is untouched.
-/

theorem dropTrail_append (l : List Char) :
    dropTrail l ++ (l.reverse.takeWhile isSpace).reverse = l := by
  have h := List.takeWhile_append_dropWhile (p := isSpace) (l := l.reverse)
  calc dropTrail l ++ (l.reverse.takeWhile isSpace).reverse
      = (l.reverse.takeWhile isSpace ++ l.reverse.dropWhile isSpace).reverse := by
        rw [List.reverse_append]; rfl
    _ = l := by rw [h, List.reverse_reverse]

theorem stripL_decomp (l : List Char) :
    l.takeWhile isSpace ++ (stripL l ++ ((l.dropWhile isSpace).reverse.takeWhile isSpace).reverse) = l := by
  have h1 := dropTrail_append (l.dropWhile isSpace)
  have h2 := List.takeWhile_append_dropWhile (p := isSpace) (l := l)
  rw [stripL] at *
  rw [h1, h2]

theorem mem_dropTrail {x : Char} {l : List Char} (h : x ∈ dropTrail l) : x ∈ l := by
  rw [dropTrail, List.mem_reverse] at h
  exact List.mem_reverse.mp (mem_of_mem_dw h)

theorem mem_stripL {x : Char} {l : List Char} (h : x ∈ stripL l) : x ∈ l :=
  mem_of_mem_dw (mem_dropTrail h)

theorem any_false_stripL {p : Char → Bool} {l : List Char} (h : l.any p = false) :
    (stripL l).any p = false := by
  rw [List.any_eq_false] at h ⊢
  exact fun x hx => h x (mem_stripL hx)

theorem stripL_dw (l : List Char) : (stripL l).dropWhile isSpace = stripL l := by
  rw [stripL]
  cases hz : dropTrail (l.dropWhile isSpace) with
  | nil => rfl
  | cons a t =>
    have hd : dropTrail (l.dropWhile isSpace) ++ ((l.dropWhile isSpace).reverse.takeWhile isSpace).reverse
        = l.dropWhile isSpace := dropTrail_append _
    rw [hz] at hd
    have hself : (l.dropWhile isSpace).dropWhile isSpace = l.dropWhile isSpace :=
      dropWhile_self _ _
    rw [← hd] at hself
    have ha : isSpace a = false := by
      rw [List.cons_append] at hself
      exact head_false_of_dw_self hself
    rw [List.dropWhile_cons, if_neg (by rw [ha]; intro hc; cases hc)]

theorem dropTrail_dropTrail (l : List Char) : dropTrail (dropTrail l) = dropTrail l := by
  rw [dropTrail, dropTrail, List.reverse_reverse, dropWhile_self]

theorem stripL_idem (l : List Char) : stripL (stripL l) = stripL l := by
  conv_lhs => rw [stripL, stripL_dw]
  rw [stripL, dropTrail_dropTrail]

theorem stripL_of_no_space {l : List Char} (h : ∀ c ∈ l, isSpace c = false) :
    stripL l = l := by
  have hdw : ∀ (m : List Char), (∀ c ∈ m, isSpace c = false) → m.dropWhile isSpace = m := by
    intro m hm
    cases m with
    | nil => rfl
    | cons a t =>
      rw [List.dropWhile_cons,
        if_neg (by rw [hm a (List.mem_cons_self _ _)]; intro hc; cases hc)]
  rw [stripL, hdw l h, dropTrail,
    hdw l.reverse (fun c hc => h c (List.mem_reverse.mp hc)), List.reverse_reverse]

/-!
### Bracket-pattern lemmas
Both regex substitutions of `prefer_latin_title` can only fire on an
opening bracket that has a closing bracket somewhere after it
(`hasOpenClose`).  The key facts: a list without that configuration is
a fixed point of both substitutions, and the output of the second
substitution never contains the configuration — which is exactly what
makes `prefer_latin_title` idempotent.
-/

theorem isSpace_not_open {c : Char} (h : isSpace c = true) : isOpen c = false := by
  simp only [isSpace, Bool.or_eq_true, beq_iff_eq, or_assoc] at h
  rcases h with rfl | rfl | rfl | rfl | rfl | rfl | rfl <;> decide

theorem isSpace_not_close {c : Char} (h : isSpace c = true) : isClose c = false := by
  simp only [isSpace, Bool.or_eq_true, beq_iff_eq, or_assoc] at h
  rcases h with rfl | rfl | rfl | rfl | rfl | rfl | rfl <;> decide

theorem hoc_cons (c : Char) (l : List Char) :
    hasOpenClose (c :: l) = ((isOpen c && l.any isClose) || hasOpenClose l) := rfl

theorem hoc_append_false :
    ∀ {l₁ l₂ : List Char}, hasOpenClose (l₁ ++ l₂) = false →
      hasOpenClose l₁ = false ∧ hasOpenClose l₂ = false := by
  intro l₁
  induction l₁ with
  | nil => intro l₂ h; exact ⟨rfl, h⟩
  | cons a t ih =>
    intro l₂ h
    rw [List.cons_append, hoc_cons, Bool.or_eq_false_iff] at h
    obtain ⟨h1, h2⟩ := h
    obtain ⟨h3, h4⟩ := ih h2
    refine ⟨?_, h4⟩
    rw [hoc_cons, Bool.or_eq_false_iff]
    refine ⟨?_, h3⟩
    cases ho : isOpen a with
    | false => rw [Bool.false_and]
    | true =>
      rw [ho, Bool.true_and] at h1
      rw [Bool.true_and]
      rw [List.any_append, Bool.or_eq_false_iff] at h1
      exact h1.1

theorem hoc_cons_not_open {c : Char} {l : List Char} (h : isOpen c = false) :
    hasOpenClose (c :: l) = hasOpenClose l := by
  rw [hoc_cons, h, Bool.false_and, Bool.false_or]

theorem hoc_prepend_false {ws l : List Char} (hws : ∀ c ∈ ws, isOpen c = false)
    (h : hasOpenClose l = false) : hasOpenClose (ws ++ l) = false := by
  induction ws with
  | nil => exact h
  | cons a t ih =>
    rw [List.cons_append, hoc_cons_not_open (hws a (List.mem_cons_self _ _))]
    exact ih fun c hc => hws c (List.mem_cons_of_mem a hc)

theorem hoc_all_not_open {l : List Char} (h : ∀ c ∈ l, isOpen c = false) :
    hasOpenClose l = false := by
  have := hoc_prepend_false (l := []) h rfl
  rwa [List.append_nil] at this

theorem hoc_stripL_false {l : List Char} (h : hasOpenClose l = false) :
    hasOpenClose (stripL l) = false := by
  have hd := stripL_decomp l
  have h1 := (hoc_append_false (by rw [hd]; exact h)).2
  exact (hoc_append_false h1).1

theorem matchTail1_no_close {l : List Char} (h : l.any isClose = false) :
    matchTail1 l = false := by
  rw [matchTail1, dw_eq_nil_of_all]
  intro x hx
  rw [List.any_eq_false] at h
  simp [h x hx]

theorem sub1_fix : ∀ {cs : List Char}, hasOpenClose cs = false → sub1 cs = cs := by
  intro cs
  induction cs with
  | nil => intro _; rfl
  | cons c rest ih =>
    intro h
    rw [hoc_cons, Bool.or_eq_false_iff] at h
    obtain ⟨h1, h2⟩ := h
    rw [sub1]
    cases ho : isOpen c with
    | false => rw [Bool.false_and, if_neg (by simp), ih h2]
    | true =>
      rw [ho, Bool.true_and] at h1
      rw [Bool.true_and, matchTail1_no_close h1, if_neg (by simp), ih h2]

theorem any_false_sub {p : Char → Bool} {l m : List Char}
    (hsub : ∀ x ∈ m, x ∈ l) (h : l.any p = false) : m.any p = false := by
  rw [List.any_eq_false] at h ⊢
  exact fun x hx => h x (hsub x hx)

theorem sub2F_no_close : ∀ (fuel : Nat) {cs : List Char},
    cs.any isClose = false → sub2F fuel cs = cs := by
  intro fuel
  induction fuel with
  | zero => intro cs _; rfl
  | succ fuel ih =>
    intro cs h
    rw [sub2F]
    cases hrest : cs.dropWhile isSpace with
    | nil =>
      conv_rhs => rw [← List.takeWhile_append_dropWhile (p := isSpace) (l := cs)]
      rw [hrest, List.append_nil]
    | cons r rest2 =>
      have h2 : rest2.any isClose = false := by
        refine any_false_sub (fun x hx => ?_) h
        exact mem_of_mem_dw (by rw [hrest]; exact List.mem_cons_of_mem r hx)
      dsimp only
      rw [h2, Bool.and_false, if_neg (by simp), ih h2]
      conv_rhs => rw [← List.takeWhile_append_dropWhile (p := isSpace) (l := cs)]
      rw [hrest]

theorem sub2F_fix : ∀ (fuel : Nat) {cs : List Char},
    hasOpenClose cs = false → sub2F fuel cs = cs := by
  intro fuel
  induction fuel with
  | zero => intro cs _; rfl
  | succ fuel ih =>
    intro cs h
    rw [sub2F]
    cases hrest : cs.dropWhile isSpace with
    | nil =>
      conv_rhs => rw [← List.takeWhile_append_dropWhile (p := isSpace) (l := cs)]
      rw [hrest, List.append_nil]
    | cons r rest2 =>
      have hrest' : hasOpenClose (r :: rest2) = false := by
        rw [← hrest]
        refine (@hoc_append_false (cs.takeWhile isSpace) (cs.dropWhile isSpace) ?_).2
        rw [List.takeWhile_append_dropWhile]; exact h
      rw [hoc_cons, Bool.or_eq_false_iff] at hrest'
      obtain ⟨h1, h2⟩ := hrest'
      dsimp only
      rw [h1, if_neg (by simp), ih h2]
      conv_rhs => rw [← List.takeWhile_append_dropWhile (p := isSpace) (l := cs)]
      rw [hrest]

theorem hoc_sub2F_false : ∀ (fuel : Nat) {cs : List Char},
    cs.length ≤ fuel → hasOpenClose (sub2F fuel cs) = false := by
  intro fuel
  induction fuel with
  | zero =>
    intro cs hlen
    have : cs = [] := by
      cases cs with
      | nil => rfl
      | cons a t => exact absurd hlen (by simp)
    subst this; rfl
  | succ fuel ih =>
    intro cs hlen
    rw [sub2F]
    cases hrest : cs.dropWhile isSpace with
    | nil =>
      refine hoc_all_not_open fun c hc => ?_
      exact isSpace_not_open (pred_of_mem_tw hc)
    | cons r rest2 =>
      have hlen2 : rest2.length + 1 ≤ cs.length := by
        have := length_dw_le isSpace cs
        rw [hrest] at this
        simpa using this
      dsimp only
      cases hcond : (isOpen r && rest2.any isClose) with
      | true =>
        rw [if_pos rfl]
        rw [Bool.and_eq_true] at hcond
        cases hdrop : rest2.dropWhile (fun c => !(isClose c)) with
        | nil =>
          exfalso
          have hall := dw_eq_nil_all hdrop
          rw [List.any_eq_true] at hcond
          obtain ⟨x, hx, hcl⟩ := hcond.2
          have := hall x hx
          rw [hcl] at this
          cases this
        | cons b rest4 =>
          dsimp only
          have hlen4 : rest4.length + 1 ≤ rest2.length := by
            have := length_dw_le (fun c => !(isClose c)) rest2
            rw [hdrop] at this
            simpa using this
          have hlen5 : (rest4.dropWhile isSpace).length ≤ rest4.length :=
            length_dw_le isSpace rest4
          rw [hoc_cons_not_open (by decide)]
          exact ih (by omega)
      | false =>
        rw [if_neg (by simp)]
        refine hoc_prepend_false (fun c hc => isSpace_not_open (pred_of_mem_tw hc)) ?_
        have hX : hasOpenClose (sub2F fuel rest2) = false := ih (by omega)
        cases ho : isOpen r with
        | false => rw [hoc_cons_not_open ho]; exact hX
        | true =>
          have hany : rest2.any isClose = false := by
            cases hany : rest2.any isClose with
            | false => rfl
            | true => rw [ho, hany] at hcond; cases hcond
          rw [hoc_cons, sub2F_no_close fuel hany, hany, Bool.and_false, Bool.false_or]
          rw [sub2F_no_close fuel hany] at hX
          exact hX

theorem hoc_sub2_false (cs : List Char) : hasOpenClose (sub2 cs) = false :=
  hoc_sub2F_false cs.length (Nat.le_refl _)

theorem sub2_fix {cs : List Char} (h : hasOpenClose cs = false) : sub2 cs = cs :=
  sub2F_fix cs.length h

/-!
### Idempotence of the Latin-title normalisation
-/

theorem pltL_fix {t : List Char} (h1 : stripL t = t) (h2 : hasOpenClose t = false) :
    pltL t = t := by
  rw [pltL, h1]
  by_cases he : t = []
  · rw [if_pos he]
  · rw [if_neg he]
    by_cases hl : t.any isLatin = true
    · rw [if_pos hl, sub1_fix h2, h1, sub2_fix h2, h1]
    · rw [if_neg hl]

theorem pltL_fix_noLatin {t : List Char} (h1 : stripL t = t)
    (hl : t.any isLatin = false) : pltL t = t := by
  rw [pltL, h1]
  by_cases he : t = []
  · rw [if_pos he]
  · rw [if_neg he, if_neg (by rw [hl]; intro hc; cases hc)]

theorem pltL_idem (cs : List Char) : pltL (pltL cs) = pltL cs := by
  by_cases hs : stripL cs = []
  · have h1 : pltL cs = stripL cs := by rw [pltL, if_pos hs]
    rw [h1, hs]
    rfl
  · by_cases hl : (stripL cs).any isLatin = true
    · have hform : pltL cs = stripL (sub2 (stripL (sub1 (stripL cs)))) := by
        rw [pltL, if_neg hs, if_pos hl]
      rw [hform]
      exact pltL_fix (stripL_idem _) (hoc_stripL_false (hoc_sub2_false _))
    · have hform : pltL cs = stripL cs := by
        rw [pltL, if_neg hs, if_neg hl]
      rw [hform]
      exact pltL_fix_noLatin (stripL_idem _) (by
        cases h : (stripL cs).any isLatin with
        | false => rfl
        | true => exact absurd h hl)

/-!
### Cast-splitting lemmas
`normalize_cast` splits on the delimiter class, drops empties and
rejoins with `、`.  Its idempotence comes from three facts: every
token is nonempty and delimiter-free, joining such tokens produces a
whitespace-free string, and re-splitting the joined string recovers
exactly the tokens.
-/

theorem rsA_delim {c : Char} (l : List Char) (h : isDelim c = true) :
    rawSplitA (c :: l) = ([], (rawSplitA l).1 :: (rawSplitA l).2) := by
  rw [rawSplitA, if_pos h]

theorem rsA_nondelim {c : Char} (l : List Char) (h : isDelim c = false) :
    rawSplitA (c :: l) = (c :: (rawSplitA l).1, (rawSplitA l).2) := by
  rw [rawSplitA, if_neg (by rw [h]; intro hc; cases hc)]

theorem rsA_free (l : List Char) :
    (∀ c ∈ (rawSplitA l).1, isDelim c = false) ∧
      (∀ t ∈ (rawSplitA l).2, ∀ c ∈ t, isDelim c = false) := by
  induction l with
  | nil => exact ⟨fun c hc => absurd hc (by simp [rawSplitA]), fun t ht => absurd ht (by simp [rawSplitA])⟩
  | cons a l ih =>
    cases ha : isDelim a with
    | true =>
      rw [rsA_delim l ha]
      refine ⟨fun c hc => absurd hc (by simp), fun t ht => ?_⟩
      rcases List.mem_cons.mp ht with rfl | ht
      · exact ih.1
      · exact ih.2 t ht
    | false =>
      rw [rsA_nondelim l ha]
      refine ⟨fun c hc => ?_, ih.2⟩
      rcases List.mem_cons.mp hc with rfl | hc
      · exact ha
      · exact ih.1 c hc

theorem rsA_clean : ∀ {l : List Char}, (∀ c ∈ l, isDelim c = false) → rawSplitA l = (l, []) := by
  intro l
  induction l with
  | nil => intro _; rfl
  | cons a l ih =>
    intro h
    rw [rsA_nondelim l (h a (List.mem_cons_self _ _)),
      ih fun c hc => h c (List.mem_cons_of_mem a hc)]

theorem rsA_append {d : Char} {rest : List Char} (hd : isDelim d = true) :
    ∀ {t : List Char}, (∀ c ∈ t, isDelim c = false) →
      rawSplitA (t ++ d :: rest) = (t, (rawSplitA rest).1 :: (rawSplitA rest).2) := by
  intro t
  induction t with
  | nil => intro _; rw [List.nil_append, rsA_delim rest hd]
  | cons a t ih =>
    intro h
    rw [List.cons_append, rsA_nondelim _ (h a (List.mem_cons_self _ _)),
      ih fun c hc => h c (List.mem_cons_of_mem a hc)]

theorem joinT_single (t : List Char) : joinT [t] = t := rfl

theorem joinT_cons2 (t u : List Char) (ts : List (List Char)) :
    joinT (t :: u :: ts) = t ++ '、' :: joinT (u :: ts) := rfl

theorem isEmpty_false_of_ne {t : List Char} (h : t ≠ []) : t.isEmpty = false := by
  cases t with
  | nil => exact absurd rfl h
  | cons a t => rfl

theorem tokens_facts (l : List Char) :
    ∀ t ∈ tokens l, t ≠ [] ∧ ∀ c ∈ t, isDelim c = false := by
  intro t ht
  rw [tokens, List.mem_filter] at ht
  obtain ⟨hmem, hne⟩ := ht
  constructor
  · intro hnil
    subst hnil
    cases hne
  · rw [rawSplit] at hmem
    rcases List.mem_cons.mp hmem with rfl | hmem
    · exact (rsA_free l).1
    · exact (rsA_free l).2 t hmem

theorem joinT_no_space {ts : List (List Char)}
    (h : ∀ t ∈ ts, ∀ c ∈ t, isDelim c = false) : ∀ c ∈ joinT ts, isSpace c = false := by
  induction ts with
  | nil => intro c hc; exact absurd hc (by simp [joinT])
  | cons t ts ih =>
    intro c hc
    have hnotsp : ∀ x ∈ t, isSpace x = false := by
      intro x hx
      cases hsp : isSpace x with
      | false => rfl
      | true =>
        have : isDelim x = true := by simp [isDelim, hsp]
        rw [h t (List.mem_cons_self _ _) x hx] at this
        cases this
    cases ts with
    | nil => exact hnotsp c hc
    | cons u ts' =>
      rw [joinT_cons2] at hc
      rcases List.mem_append.mp hc with hc | hc
      · exact hnotsp c hc
      · rcases List.mem_cons.mp hc with rfl | hc
        · decide
        · exact ih (fun x hx => h x (List.mem_cons_of_mem t hx)) c hc

theorem tokens_joinT : ∀ {ts : List (List Char)},
    (∀ t ∈ ts, t ≠ [] ∧ ∀ c ∈ t, isDelim c = false) → tokens (joinT ts) = ts := by
  intro ts
  induction ts with
  | nil => intro _; rfl
  | cons t ts ih =>
    intro h
    obtain ⟨hne, hfree⟩ := h t (List.mem_cons_self _ _)
    cases ts with
    | nil =>
      rw [joinT_single, tokens, rawSplit, rsA_clean hfree]
      simp [List.filter, isEmpty_false_of_ne hne]
    | cons u ts' =>
      rw [joinT_cons2, tokens, rawSplit, rsA_append (by decide) hfree]
      have htail := ih fun x hx => h x (List.mem_cons_of_mem t hx)
      rw [tokens, rawSplit] at htail
      rw [List.filter_cons, isEmpty_false_of_ne hne, Bool.not_false, if_pos rfl, htail]

theorem tokens_strip_joinT {ts : List (List Char)}
    (h : ∀ t ∈ ts, t ≠ [] ∧ ∀ c ∈ t, isDelim c = false) :
    tokens (stripL (joinT ts)) = ts := by
  rw [stripL_of_no_space (joinT_no_space fun t ht => (h t ht).2), tokens_joinT h]

/-!
### Trimming and idea-sifting lemmas
-/

theorem trim_nonpos {s : String} {n : Int} (h : n ≤ 0) : trim_to_len s n = "" := by
  rw [trim_to_len, if_pos h]

theorem trim_len_le {s : String} {n : Int} (h : 0 < n) :
    ((trim_to_len s n).length : Int) ≤ n := by
  rw [trim_to_len, if_neg (by omega)]
  by_cases h2 : (s.length : Int) ≤ n
  · rw [if_pos h2]; exact h2
  · rw [if_neg h2]
    have hlen : (String.mk (s.data.take n.toNat)).length = (s.data.take n.toNat).length := rfl
    rw [hlen, List.length_take]
    omega

theorem sift_length_le (n : Int) :
    ∀ (xs out : List String), (sift n out xs).length ≤ out.length + xs.length := by
  intro xs
  induction xs with
  | nil => intro out; rw [sift]; simp
  | cons x xs ih =>
    intro out
    rw [sift]
    by_cases hc : trim_to_len x n ≠ "" ∧ trim_to_len x n ∉ out
    · rw [if_pos hc]
      have := ih (out ++ [trim_to_len x n])
      rw [List.length_append, List.length_singleton] at this
      simp only [List.length_cons]
      omega
    · rw [if_neg hc]
      have := ih out
      simp only [List.length_cons]
      omega

theorem sift_nodup (n : Int) :
    ∀ (xs out : List String), out.Nodup → (sift n out xs).Nodup := by
  intro xs
  induction xs with
  | nil => intro out h; rw [sift]; exact h
  | cons x xs ih =>
    intro out h
    rw [sift]
    by_cases hc : trim_to_len x n ≠ "" ∧ trim_to_len x n ∉ out
    · rw [if_pos hc]
      refine ih _ ?_
      rw [List.nodup_append]
      exact ⟨h, List.nodup_singleton _, fun a ha hb => hc.2 (by
        rcases List.mem_singleton.mp hb with rfl
        exact ha)⟩
    · rw [if_neg hc]
      exact ih out h

theorem sift_mem (n : Int) :
    ∀ (xs out : List String) (s : String), s ∈ sift n out xs →
      s ∈ out ∨ (s ≠ "" ∧ ∃ x, s = trim_to_len x n) := by
  intro xs
  induction xs with
  | nil => intro out s h; rw [sift] at h; exact Or.inl h
  | cons x xs ih =>
    intro out s h
    rw [sift] at h
    by_cases hc : trim_to_len x n ≠ "" ∧ trim_to_len x n ∉ out
    · rw [if_pos hc] at h
      rcases ih _ s h with hmem | hnew
      · rcases List.mem_append.mp hmem with hmem | hmem
        · exact Or.inl hmem
        · rcases List.mem_singleton.mp hmem with rfl
          exact Or.inr ⟨hc.1, x, rfl⟩
      · exact Or.inr hnew
    · rw [if_neg hc] at h
      exact ih out s h

/-!
### Enumeration and indexing lemmas
-/

theorem pyEnumerate_mem {α : Type} :
    ∀ (l : List α) (st : Nat) (p : Nat × α), p ∈ pyEnumerate st l →
      ∃ j, p.1 = st + j ∧ listNth l j = some p.2 := by
  intro l
  induction l with
  | nil => intro st p h; exact absurd h (by simp [pyEnumerate])
  | cons a as ih =>
    intro st p h
    rw [pyEnumerate] at h
    rcases List.mem_cons.mp h with rfl | h
    · exact ⟨0, rfl, rfl⟩
    · obtain ⟨j, h1, h2⟩ := ih (st + 1) p h
      exact ⟨j + 1, by omega, h2⟩

theorem pyIndex_none_iff {α : Type} (l : List α) (i : Int) :
    pyIndex l i = none ↔ (i < -(l.length : Int) ∨ (l.length : Int) ≤ i) := by
  rw [pyIndex]
  by_cases h : 0 ≤ i
  · rw [if_pos h, listNth_none_iff]
    omega
  · rw [if_neg h]
    by_cases h2 : 0 ≤ i + l.length
    · rw [if_pos h2, listNth_none_iff]
      omega
    · rw [if_neg h2]
      simp only [true_iff]
      omega

theorem cell_lookup_none1 {df : List (List String)} {r c : Int}
    (h : pyIndex df r = none) : cell_lookup df r c = "" := by
  unfold cell_lookup
  rw [h]

theorem cell_lookup_none2 {df : List (List String)} {r c : Int} {row : List String}
    (h1 : pyIndex df r = some row) (h2 : pyIndex row c = none) :
    cell_lookup df r c = "" := by
  unfold cell_lookup
  rw [h1]
  dsimp only
  rw [h2]

theorem cell_lookup_some {df : List (List String)} {r c : Int} {row : List String}
    {v : String} (h1 : pyIndex df r = some row) (h2 : pyIndex row c = some v) :
    cell_lookup df r c = cellText v := by
  unfold cell_lookup
  rw [h1]
  dsimp only
  rw [h2]

/-!
### Claim theorems
One theorem per claim of the specification review, each preceded by
the claim it settles.
-/

/-- C1: for every target length L, main title m and short title s, the
resolved display title `selectTitle L m s` equals s when `L ≤ 10` and
s is non-empty, and equals m otherwise; in particular
`selectTitle 10 "FULL TITLE" "短縮" = "短縮"`,
`selectTitle 11 "FULL TITLE" "短縮" = "FULL TITLE"` and
`selectTitle 5 "FULL" "" = "FULL"`; a manually entered short-title
override takes precedence over the grid's short-title value.  The
resolver is modelled from the spec because src/app.py contains no
short-title logic. -/
theorem c1_select_title :
    (∀ (L : Int) (m s : String),
        (L ≤ 10 → s ≠ "" → selectTitle L m s = s) ∧
        (¬(L ≤ 10 ∧ s ≠ "") → selectTitle L m s = m)) ∧
      selectTitle 10 "FULL TITLE" "短縮" = "短縮" ∧
      selectTitle 11 "FULL TITLE" "短縮" = "FULL TITLE" ∧
      selectTitle 5 "FULL" "" = "FULL" ∧
      (∀ manual gridShort : String, manual ≠ "" → resolveShortTitle manual gridShort = manual) := by
  refine ⟨?_, by decide, by decide, by decide, ?_⟩
  · intro L m s
    constructor
    · intro h1 h2
      rw [selectTitle, if_pos ⟨h1, h2⟩]
    · intro h
      rw [selectTitle, if_neg h]
  · intro manual gridShort h
    rw [resolveShortTitle, if_pos h]

/-- Witness for C1 at concrete inputs. -/
theorem c1_select_title_witness :
    selectTitle 10 "MAIN" "SHORT" = "SHORT" ∧ resolveShortTitle "手動" "格子" = "手動" :=
  ⟨(c1_select_title.1 10 "MAIN" "SHORT").1 (by decide) (by decide),
   c1_select_title.2.2.2.2 "手動" "格子" (by decide)⟩

/-- C2: for every base title, cast string, mark set and target length
L, `generate_ideas` returns at most 3 entries, contains no duplicate
text, and every entry's character count is at most L. -/
theorem c2_generate_ideas_invariants (t c : String) (m : Marks) (L : Int) :
    (generate_ideas t c m L).length ≤ 3 ∧ (generate_ideas t c m L).Nodup ∧
      ∀ s ∈ generate_ideas t c m L, (s.length : Int) ≤ L := by
  refine ⟨?_, sift_nodup L _ [] List.nodup_nil, ?_⟩
  · have h := sift_length_le L
      [compose_text t c m, compose_text t (cast_first_n c 2) m, compose_text t "" m] []
    rw [generate_ideas]
    simpa using h
  · intro s hs
    rw [generate_ideas] at hs
    rcases sift_mem L _ [] s hs with hmem | ⟨hne, x, rfl⟩
    · exact absurd hmem (by simp)
    · by_cases hL : 0 < L
      · exact trim_len_le hL
      · exact absurd (trim_nonpos (by omega)) hne

/-- Witness for C2: a concrete member of a concrete run obeys the
length bound. -/
theorem c2_generate_ideas_witness :
    "AB" ∈ generate_ideas "ABCD" "" ⟨false, false, false, false⟩ 2 ∧
      (("AB" : String).length : Int) ≤ 2 :=
  ⟨by decide,
   (c2_generate_ideas_invariants "ABCD" "" ⟨false, false, false, false⟩ 2).2.2 "AB" (by decide)⟩

/-- C3: `get_cell` never raises (it is a total function to `String`);
it returns the cell's text stripped of surrounding whitespace, and the
empty string when the position is absent (`none`), out of range (the
`pyIndex` boundary is exactly `i < -len ∨ len ≤ i`), or the stripped
cell text is the case-insensitive literal "nan". -/
theorem c3_get_cell_contract (df : List (List String)) (r c : Int) :
    get_cell df none = "" ∧
    (pyIndex df r = none ↔ (r < -(df.length : Int) ∨ (df.length : Int) ≤ r)) ∧
    (pyIndex df r = none → get_cell df (some (r, c)) = "") ∧
    (∀ row, pyIndex df r = some row → pyIndex row c = none →
      get_cell df (some (r, c)) = "") ∧
    (∀ row v, pyIndex df r = some row → pyIndex row c = some v →
      get_cell df (some (r, c)) = (if lowerS (stripS v) = "nan" then "" else stripS v)) := by
  refine ⟨rfl, pyIndex_none_iff df r, ?_, ?_, ?_⟩
  · intro h
    exact cell_lookup_none1 h
  · intro row h1 h2
    exact cell_lookup_none2 h1 h2
  · intro row v h1 h2
    exact cell_lookup_some h1 h2

/-- Witness for C3 on a concrete grid: an in-range cell is stripped, a
"nan" cell and an out-of-range row give the empty string. -/
theorem c3_get_cell_witness :
    get_cell [["  A  ", " nan "]] (some (0, 0)) = "A" ∧
      get_cell [["  A  ", " nan "]] (some (0, 1)) = "" ∧
      get_cell [["  A  ", " nan "]] (some (7, 0)) = "" := by
  refine ⟨?_, ?_, ?_⟩
  · have h := (c3_get_cell_contract [["  A  ", " nan "]] 0 0).2.2.2.2
      ["  A  ", " nan "] "  A  " (by decide) (by decide)
    rw [h]
    decide
  · have h := (c3_get_cell_contract [["  A  ", " nan "]] 0 1).2.2.2.2
      ["  A  ", " nan "] " nan " (by decide) (by decide)
    rw [h]
    decide
  · exact (c3_get_cell_contract [["  A  ", " nan "]] 7 0).2.2.1 (by decide)

/-- C4 counterexample: the claim says a title with no Latin letter is
returned unchanged, character for character; but `prefer_latin_title`
strips surrounding whitespace first, so " あ" (no Latin letters) comes
back as "あ". -/
theorem c4_counterexample :
    (" あ" : String).data.any isLatin = false ∧
      prefer_latin_title " あ" ≠ " あ" ∧ prefer_latin_title " あ" = "あ" :=
  ⟨by decide, by decide, by decide⟩

/-- C4 (amended): for every raw title string that contains no Latin
letter, `prefer_latin_title` returns its input stripped of leading and
trailing whitespace — so an input with no surrounding whitespace is
returned unchanged, character for character. -/
theorem c4_no_latin_strips (s : String) (h : s.data.any isLatin = false) :
    prefer_latin_title s = stripS s := by
  refine congrArg String.mk ?_
  rw [pltL]
  by_cases he : stripL s.data = []
  · rw [if_pos he]
  · rw [if_neg he, if_neg (by rw [any_false_stripL h]; intro hc; cases hc)]

/-- Witness for C4 (amended) at a concrete whitespace-wrapped input. -/
theorem c4_no_latin_witness :
    (" あ " : String).data.any isLatin = false ∧
      prefer_latin_title " あ " = stripS " あ " :=
  ⟨by decide, c4_no_latin_strips " あ " (by decide)⟩

/-- C5: `prefer_latin_title` is idempotent, and
`prefer_latin_title "DOCTOR PRICE（ドクタープライス）" = "DOCTOR PRICE"`. -/
theorem c5_prefer_latin_idempotent :
    (∀ s : String, prefer_latin_title (prefer_latin_title s) = prefer_latin_title s) ∧
      prefer_latin_title "DOCTOR PRICE（ドクタープライス）" = "DOCTOR PRICE" := by
  constructor
  · intro s
    exact congrArg String.mk (pltL_idem s.data)
  · decide

/-- C6: cast normalisation is idempotent, and
`normalize_cast "田中,山田／鈴木" = "田中、山田、鈴木"`. -/
theorem c6_normalize_cast_idempotent :
    (∀ x : String, normalize_cast (normalize_cast x) = normalize_cast x) ∧
      normalize_cast "田中,山田／鈴木" = "田中、山田、鈴木" := by
  constructor
  · intro x
    exact congrArg String.mk (congrArg joinT (tokens_strip_joinT (tokens_facts _)))
  · decide

/-- C7 counterexample: the claim says an empty cast always yields
exactly one entry, but at target length 0 every candidate trims to the
empty string and the result is empty. -/
theorem c7_counterexample :
    generate_ideas "T" "" ⟨false, false, false, false⟩ 0 = [] ∧
      (generate_ideas "T" "" ⟨false, false, false, false⟩ 0).length ≠ 1 :=
  ⟨by decide, by decide⟩

/-- C7 (amended): with an empty cast all three raw candidates collapse
to the title-only composition, so `generate_ideas` returns exactly one
entry when that composition trims to something non-empty and no entry
otherwise (e.g. for L ≤ 0); in every case at most one entry. -/
theorem c7_empty_cast_amended (t : String) (m : Marks) (L : Int) :
    generate_ideas t "" m L =
      (if trim_to_len (compose_text t "" m) L = "" then []
       else [trim_to_len (compose_text t "" m) L]) ∧
    (generate_ideas t "" m L).length ≤ 1 := by
  have hc : cast_first_n "" 2 = "" := rfl
  have hmain : generate_ideas t "" m L =
      (if trim_to_len (compose_text t "" m) L = "" then []
       else [trim_to_len (compose_text t "" m) L]) := by
    rw [generate_ideas, hc]
    by_cases h : trim_to_len (compose_text t "" m) L = ""
    · rw [if_pos h]
      simp [sift, h]
    · rw [if_neg h]
      simp [sift, h]
  refine ⟨hmain, ?_⟩
  rw [hmain]
  by_cases h : trim_to_len (compose_text t "" m) L = ""
  · rw [if_pos h]
    simp
  · rw [if_neg h]
    simp

/-- C8 counterexample: the claim says every output row carries the
title variant used for its length, but the row dict of app.py lines
180-182 has only the four keys length, idea_no, text, writer; in this
run the title variant is "ABCDEF" (the base title, which is also what
the spec's selectTitle yields for an empty short title) and no value
of the produced row equals it. -/
theorem c8_counterexample :
    out_rows "ABCDEF" "" ⟨false, false, false, false⟩ [3] "W" = [mkRow 3 1 "ABC" "W"] ∧
      ((mkRow 3 1 "ABC" "W").all fun kv => decide (kv.2 ≠ PyVal.str "ABCDEF")) = true :=
  ⟨by decide, by decide⟩

/-- C8 (amended): every row of the orchestration loop's output carries
exactly the target length, the 1-based idea ordinal within its length
group, the composed-and-truncated text and the writer name — and
nothing else; the title variant is not part of the row. -/
theorem c8_rows_amended (t c : String) (m : Marks) (ls : List Int) (w : String) :
    ∀ row ∈ out_rows t c m ls w,
      row.map Prod.fst = ["length", "idea_no", "text", "writer"] ∧
      ∃ L j idea, L ∈ ls ∧ listNth (generate_ideas t c m L) j = some idea ∧
        row = mkRow L (j + 1) idea w := by
  intro row h
  rw [out_rows, List.mem_flatMap] at h
  obtain ⟨L, hL, hrow⟩ := h
  rw [List.mem_map] at hrow
  obtain ⟨p, hp, rfl⟩ := hrow
  obtain ⟨j, hj1, hj2⟩ := pyEnumerate_mem _ 1 p hp
  refine ⟨rfl, L, j, p.2, hL, hj2, ?_⟩
  rw [hj1, Nat.add_comm]

/-- Witness for C8 (amended) on a concrete run. -/
theorem c8_rows_witness :
    (mkRow 3 1 "ABC" "W").map Prod.fst = ["length", "idea_no", "text", "writer"] :=
  (c8_rows_amended "ABCDEF" "" ⟨false, false, false, false⟩ [3] "W"
    (mkRow 3 1 "ABC" "W") (by decide)).1

/-- C9: for every base title, cast string and mark set, and every
target length L ≤ 0, `generate_ideas` returns the empty sequence:
every candidate trims to "" and empty results are discarded. -/
theorem c9_nonpositive_length (t c : String) (m : Marks) (L : Int) (h : L ≤ 0) :
    generate_ideas t c m L = [] := by
  simp [generate_ideas, sift, trim_nonpos h]

/-- Witness for C9 at L = -1. -/
theorem c9_nonpositive_witness :
    ((-1 : Int) ≤ 0) ∧ generate_ideas "T" "C" ⟨false, false, false, false⟩ (-1) = [] :=
  ⟨by decide, c9_nonpositive_length "T" "C" ⟨false, false, false, false⟩ (-1) (by decide)⟩

/-- C10: for a grid with R ≥ 1 rows of C ≥ 1 columns each, and any
position with -R ≤ r < 0 and -C ≤ c < 0, `get_cell` is not out of
range: it returns the same stripped, nan-filtered text as positive
indexing at (R + r, C + c) — the cell fetched from the end of the
grid. -/
theorem c10_negative_indexing (df : List (List String)) (R C : Nat) (r c : Int)
    (row : List String) (v : String)
    (hR : df.length = R) (hr1 : -(R : Int) ≤ r) (hr2 : r < 0)
    (hrow : listNth df (r + R).toNat = some row)
    (hC : row.length = C) (hc1 : -(C : Int) ≤ c) (hc2 : c < 0)
    (hv : listNth row (c + C).toNat = some v) :
    get_cell df (some (r, c)) = (if lowerS (stripS v) = "nan" then "" else stripS v) ∧
      get_cell df (some (r, c)) = get_cell df (some (r + R, c + C)) := by
  have hpr : pyIndex df r = some row := by
    rw [pyIndex, hR, if_neg (by omega), if_pos (by omega)]
    exact hrow
  have hpc : pyIndex row c = some v := by
    rw [pyIndex, hC, if_neg (by omega), if_pos (by omega)]
    exact hv
  have hpr' : pyIndex df (r + R) = some row := by
    rw [pyIndex, if_pos (by omega)]
    exact hrow
  have hpc' : pyIndex row (c + C) = some v := by
    rw [pyIndex, if_pos (by omega)]
    exact hv
  constructor
  · exact cell_lookup_some hpr hpc
  · rw [show get_cell df (some (r, c)) = cell_lookup df r c from rfl,
      show get_cell df (some (r + R, c + C)) = cell_lookup df (r + R) (c + C) from rfl,
      cell_lookup_some hpr hpc, cell_lookup_some hpr' hpc']

/-- Witness for C10 on a concrete one-cell grid. -/
theorem c10_negative_indexing_witness :
    get_cell [[" Z "]] (some (-1, -1)) =
        (if lowerS (stripS " Z ") = "nan" then "" else stripS " Z ") ∧
      get_cell [[" Z "]] (some (-1, -1)) = get_cell [[" Z "]] (some (-1 + 1, -1 + 1)) :=
  c10_negative_indexing [[" Z "]] 1 1 (-1) (-1) [" Z "] " Z "
    (by decide) (by decide) (by decide) (by decide) (by decide) (by decide) (by decide)
    (by decide)

end Rateran
